import Mathlib

set_option allowUnsafeReducibility true in
attribute [semireducible] Rat.add Rat.sub Rat.mul Rat.inv Rat.ofScientific

/-!
Shallow embedding of `src/recommendations.py` (rec-sys-final).

Conventions of the embedding:
* Python dictionaries become a `Finset` of keys plus a total lookup function
  (lookups are only meaningful on the key set, mirroring dict semantics).
* Floating-point arithmetic is modelled with exact rational significands.
  Where IEEE special values can change control flow or output — the feature
  encoder's `norm_vector = col_sums/overall_sum` and everything downstream of
  it in the single-item variant — NaN and the signed infinities are modelled
  explicitly (`FloatVal`).  The full-catalog feature encoder keeps the
  exact-`ℚ` idealization; its one divergence from the float code (the
  `overall_sum = 0` path) is documented at `fe_score`, and the claims proved
  about it are insensitive to that path.
* `math.sqrt` is an external library function; it is passed in as an explicit
  parameter `sq : ℚ → ℚ`, and every theorem quantifies over it.
* In-place mutation of a matrix is modelled by threading the matrix value
  through the loop folds; a Python `deepcopy` is a plain value copy.
-/

/-- Dense item-item cosine matrix, 0-indexed, as produced by `cosine_sim`. -/
abbrev Cosim := Nat → Nat → ℚ

/-- The `prefs` nested dictionary: user -> (item title -> rating). -/
structure RatingMatrix where
  users : Finset String
  items : String → Finset String
  rate : String → String → ℚ

/-- `HYBRID_WEIGHTING` constant from the source (0.75). -/
def HYBRID_WEIGHTING : ℚ := 3 / 4

/-- The shared-items dictionary `si` built at the top of `sim_distance` and
`sim_pearson`: items of `p1` that `p2` has also rated. -/
def shared_items (prefs : RatingMatrix) (p1 p2 : String) : Finset String :=
  (prefs.items p1).filter (fun item => item ∈ prefs.items p2)

/-- Embedding of `sim_distance(prefs, p1, p2, sim_weighting)`:
Euclidean-derived similarity `1/(1+sqrt(sum of squared differences))`,
with significance weighting applied only when `len(si) < sim_weighting`. -/
def sim_distance (sq : ℚ → ℚ) (prefs : RatingMatrix) (p1 p2 : String)
    (sim_weighting : ℚ) : ℚ :=
  let si := shared_items prefs p1 p2
  if si.card = 0 then 0
  else
    let sum_of_squares := si.sum (fun item => (prefs.rate p1 item - prefs.rate p2 item) ^ 2)
    let distance_sim := 1 / (1 + sq sum_of_squares)
    if sim_weighting ≠ 0 then
      if (si.card : ℚ) < sim_weighting then distance_sim * ((si.card : ℚ) / sim_weighting)
      else distance_sim
    else distance_sim

/-- Embedding of `sim_pearson(prefs, p1, p2, sim_weighting)`. Note that in the
source the significance-weighting factor is applied whenever
`sim_weighting != 0`, without the `len(si) < sim_weighting` guard that
`sim_distance` has. -/
def sim_pearson (sq : ℚ → ℚ) (prefs : RatingMatrix) (p1 p2 : String)
    (sim_weighting : ℚ) : ℚ :=
  let si := shared_items prefs p1 p2
  if si.card = 0 then 0
  else
    let x_avg := si.sum (fun item => prefs.rate p1 item) / (si.card : ℚ)
    let y_avg := si.sum (fun item => prefs.rate p2 item) / (si.card : ℚ)
    let numerator := si.sum (fun item =>
      (prefs.rate p1 item - x_avg) * (prefs.rate p2 item - y_avg))
    let denominator := sq (si.sum (fun item => (prefs.rate p1 item - x_avg) ^ 2)) *
      sq (si.sum (fun item => (prefs.rate p2 item - y_avg) ^ 2))
    if denominator ≠ 0 then
      let s := numerator / denominator
      if sim_weighting ≠ 0 then s * ((si.card : ℚ) / sim_weighting) else s
    else 0

/-- Code-point lexicographic comparison of character lists, matching Python's
`str` comparison (expressed through `Char.toNat` so that it evaluates inside
the kernel). -/
def charListLe : List Char → List Char → Bool
  | [], _ => true
  | _ :: _, [] => false
  | a :: as, b :: bs =>
    if a.toNat < b.toNat then true
    else if b.toNat < a.toNat then false
    else charListLe as bs

/-- Python's lexicographic order on strings. -/
def strLe (a b : String) : Prop := charListLe a.data b.data = true

instance : DecidableRel strLe := fun a b =>
  inferInstanceAs (Decidable (charListLe a.data b.data = true))

/-- The total order used by Python's `sorted` on `(score, title)` tuples:
lexicographic on the rational score, then on the title string. -/
def pairLe (a b : ℚ × String) : Prop :=
  a.1 < b.1 ∨ (a.1 = b.1 ∧ strLe a.2 b.2)

instance : DecidableRel pairLe := fun a b =>
  inferInstanceAs (Decidable (a.1 < b.1 ∨ (a.1 = b.1 ∧ strLe a.2 b.2)))

/-- Reversed (descending) tuple order, matching `sorted(recs, reverse=True)`. -/
def pairGE (a b : ℚ × String) : Prop := pairLe b a

instance : DecidableRel pairGE := fun a b => inferInstanceAs (Decidable (pairLe b a))

/-- Embedding of `sorted(recs, reverse=True)`: descending sort on
`(score, title)` tuples.  Because `pairGE` is a total antisymmetric order the
result is the unique sorted permutation, so any correct sort matches Python's
Timsort extensionally. -/
def sortDesc (l : List (ℚ × String)) : List (ℚ × String) :=
  List.insertionSort pairGE l

/-- The in-loop truncation of `get_FE_recommendations`:
`if len(recs) > 10: recs = recs[:n]`. -/
def cap10 (n : Nat) (l : List (ℚ × String)) : List (ℚ × String) :=
  if 10 < l.length then l.take n else l

/-- The 1-based id range `range(1, N+1)` used by the scoring loops. -/
def ids1to (N : Nat) : List Nat := (List.range N).map (· + 1)

/-- Inner loop of `get_TFIDF_recommendations` for target item `i`: accumulate
`(num, denom)` over every neighbour item `j` the user has rated, skipping
`i == j` and cells below the similarity threshold. -/
def tfidf_accum (prefs : RatingMatrix) (cosim_matrix : Cosim) (user : String)
    (sim_threshold : ℚ) (movies : Nat → String) (N : Nat) (i : Nat) : ℚ × ℚ :=
  (ids1to N).foldl (fun nd j =>
    if movies j ∉ prefs.items user then nd
    else if i = j then nd
    else if cosim_matrix (i - 1) (j - 1) < sim_threshold then nd
    else (nd.1 + prefs.rate user (movies j) * cosim_matrix (i - 1) (j - 1),
          nd.2 + cosim_matrix (i - 1) (j - 1))) (0, 0)

/-- Embedding of `get_TFIDF_recommendations(prefs, cosim_matrix, user,
sim_threshold, movies, n)` with `N = len(movies)`.  Note: the source *prints*
`sorted(recs, reverse=True)[:n]` but *returns* the raw accumulation list
`recs`, so the returned list is in catalog-id order and is not truncated;
the parameter `n` only affects the printed output. -/
def get_TFIDF_recommendations (prefs : RatingMatrix) (cosim_matrix : Cosim)
    (user : String) (sim_threshold : ℚ) (movies : Nat → String) (N : Nat)
    (n : Nat) : List (ℚ × String) :=
  let _ := n
  (ids1to N).foldl (fun recs i =>
    if movies i ∈ prefs.items user then recs
    else
      let nd := tfidf_accum prefs cosim_matrix user sim_threshold movies N i
      if 0 < nd.1 ∧ 0 < nd.2 then recs ++ [(nd.1 / nd.2, movies i)] else recs) []

/-- The list that `get_TFIDF_recommendations` prints (but does not return):
`sorted(recs, reverse=True)[:n]`. -/
def get_TFIDF_recommendations_printed (prefs : RatingMatrix) (cosim_matrix : Cosim)
    (user : String) (sim_threshold : ℚ) (movies : Nat → String) (N : Nat)
    (n : Nat) : List (ℚ × String) :=
  (sortDesc (get_TFIDF_recommendations prefs cosim_matrix user sim_threshold
    movies N n)).take n

/-- The `rated` id set built by `get_FE_recommendations`:
0-based ids of the items the user has rated. -/
def ratedIds (prefs : RatingMatrix) (movie_title_to_id : String → Nat)
    (user : String) : Finset Nat :=
  (prefs.items user).image (fun movie => movie_title_to_id movie - 1)

/-- The `feature_preference` accumulator: a float copy of `features` in which
each rated item's row is scaled by its rating and every unrated row is zeroed
(`feature_preference[id] *= 0` over `unrated_ids`).  The sequential
`feature_preference[id] *= prefs[user][movie]` loop commutes, so row `i` ends
as the original row times the product of the ratings of the rated movies whose
0-based id is `i`. -/
def feature_preference (features : Nat → Nat → ℚ) (prefs : RatingMatrix)
    (movie_title_to_id : String → Nat) (user : String) : Nat → Nat → ℚ :=
  fun i f =>
    if i ∈ ratedIds prefs movie_title_to_id user then
      features i f * ((prefs.items user).filter
        (fun movie => movie_title_to_id movie - 1 = i)).prod
        (fun movie => prefs.rate user movie)
    else 0

/-- `col_sums = np.sum(feature_preference, axis=0)` over the `I` item rows. -/
def col_sums (I : Nat) (fp : Nat → Nat → ℚ) (f : Nat) : ℚ :=
  (Finset.range I).sum (fun i => fp i f)

/-- `overall_sum = np.sum(feature_preference)` over all `I × F` entries. -/
def overall_sum (I F : Nat) (fp : Nat → Nat → ℚ) : ℚ :=
  (Finset.range F).sum (fun f => col_sums I fp f)

/-- `nonzero_count = np.count_nonzero(feature_preference, axis=0)`. -/
def nonzero_count (I : Nat) (fp : Nat → Nat → ℚ) (f : Nat) : Nat :=
  ((Finset.range I).filter (fun i => fp i f ≠ 0)).card

/-- Per-item body of the `get_FE_recommendations` loop: weight the item's
feature row by the normalized preference vector, skip the item if the
weighted sum is 0 (`continue`), otherwise form the NaN-ignoring weighted
average of per-feature average ratings, under the exact-`ℚ` idealization of
the float arithmetic.  Whenever `overall_sum ≠ 0` this matches the float
code exactly: `norm_vector` is then finite, the only special values are the
`0/0` cells of `avgs` (a column with `nonzero_count = 0` necessarily has
`col_sums = 0`), and `np.nansum` dropping those NaN terms coincides with
`ℚ`'s division-by-zero-equals-zero convention.  On the degenerate
`overall_sum = 0` path the float code instead appends a NaN-laundered `0.0`
score for every candidate rather than skipping it (see the single-item
variant, where this path is modelled exactly); the theorems proved about the
full recommender hold for the code on that path as well, being insensitive
to the candidates' scores (C8) and mapping the degenerate path to itself
with identical all-`0.0` outputs under rating scaling (C9). -/
def fe_score (features : Nat → Nat → ℚ) (I F : Nat) (fp : Nat → Nat → ℚ)
    (norm_vector : Nat → ℚ) (id : Nat) : Option ℚ :=
  let norm_weight := fun f => features id f * norm_vector f
  let norm_sum := (Finset.range F).sum norm_weight
  if norm_sum = 0 then none
  else
    let nw := fun f => norm_weight f / norm_sum
    let avgs := fun f => col_sums I fp f / (nonzero_count I fp f : ℚ)
    let avgs2 := fun f => avgs f * features id f
    let weight_avg := fun f => avgs2 f * nw f
    some ((Finset.range F).sum weight_avg)

/-- The candidate `(score, title)` pairs of `get_FE_recommendations`, in the
loop's iteration order over `unrated_ids` (ascending 0-based id, the iteration
order of a CPython set of small non-negative ints built from `range`). -/
def fe_candidates (prefs : RatingMatrix) (features : Nat → Nat → ℚ)
    (movie_title_to_id : String → Nat) (movies : Nat → String) (user : String)
    (I F : Nat) : List (ℚ × String) :=
  let fp := feature_preference features prefs movie_title_to_id user
  let norm_vector := fun f => col_sums I fp f / overall_sum I F fp
  ((List.range I).filter (fun id => id ∉ ratedIds prefs movie_title_to_id user)).filterMap
    (fun id => (fe_score features I F fp norm_vector id).map (fun s => (s, movies (id + 1))))

/-- Embedding of `get_FE_recommendations(prefs, features, movie_title_to_id,
movies, user, n)` with `I` items and `F` features: after each append the list
is re-sorted descending and, as soon as its length exceeds 10, truncated to
`n` — inside the per-item loop. -/
def get_FE_recommendations (prefs : RatingMatrix) (features : Nat → Nat → ℚ)
    (movie_title_to_id : String → Nat) (movies : Nat → String) (user : String)
    (I F n : Nat) : List (ℚ × String) :=
  let fp := feature_preference features prefs movie_title_to_id user
  let norm_vector := fun f => col_sums I fp f / overall_sum I F fp
  ((List.range I).filter (fun id => id ∉ ratedIds prefs movie_title_to_id user)).foldl
    (fun recs id =>
      match fe_score features I F fp norm_vector id with
      | none => recs
      | some s => cap10 n (sortDesc (recs ++ [(s, movies (id + 1))]))) []

/-- The variant described by the specification for claim C8: append every
candidate pair, sort once in descending order after the loop completes, then
truncate to `n` if the list exceeds 10 entries. -/
def get_FE_recommendations_sortOnce (prefs : RatingMatrix)
    (features : Nat → Nat → ℚ) (movie_title_to_id : String → Nat)
    (movies : Nat → String) (user : String) (I F n : Nat) : List (ℚ × String) :=
  cap10 n (sortDesc (fe_candidates prefs features movie_title_to_id movies user I F))

/-- IEEE-754-style value for the floating-point divisions of the feature
encoder: a finite float (with its significand modelled exactly as a
rational), a signed infinity (`inf true` is `+inf`), or NaN.  The additions
and multiplications that *build* `feature_preference`, `col_sums` and
`overall_sum` involve no division and stay finite, so only the downstream
values need the special cases. -/
inductive FloatVal where
  | fin : ℚ → FloatVal
  | inf : Bool → FloatVal
  | nan : FloatVal
deriving DecidableEq

/-- IEEE multiplication with exact finite arithmetic: NaN is absorbing and
`0 * ±inf = NaN`. -/
def FloatVal.mul : FloatVal → FloatVal → FloatVal
  | .nan, _ => .nan
  | _, .nan => .nan
  | .fin a, .fin b => .fin (a * b)
  | .fin a, .inf s => if a = 0 then .nan else if 0 < a then .inf s else .inf (!s)
  | .inf s, .fin a => if a = 0 then .nan else if 0 < a then .inf s else .inf (!s)
  | .inf s, .inf t => .inf (s == t)

/-- IEEE division with exact finite arithmetic: `0/0 = NaN`, `c/0 = ±inf`
for `c ≠ 0` (the zero divisors in this program are `+0`, being sums of an
all-zero array), `finite/±inf = 0`, `±inf/±inf = NaN`. -/
def FloatVal.div : FloatVal → FloatVal → FloatVal
  | .nan, _ => .nan
  | _, .nan => .nan
  | .fin a, .fin b =>
    if b = 0 then (if a = 0 then .nan else if 0 < a then .inf true else .inf false)
    else .fin (a / b)
  | .fin _, .inf _ => .fin 0
  | .inf s, .fin b => if 0 ≤ b then .inf s else .inf (!s)
  | .inf _, .inf _ => .nan

/-- IEEE addition with exact finite arithmetic: NaN is absorbing and
`+inf + -inf = NaN`. -/
def FloatVal.add : FloatVal → FloatVal → FloatVal
  | .nan, _ => .nan
  | _, .nan => .nan
  | .fin a, .fin b => .fin (a + b)
  | .fin _, .inf s => .inf s
  | .inf s, .fin _ => .inf s
  | .inf s, .inf t => if s = t then .inf s else .nan

/-- The float comparison `x == 0`: false for NaN and the infinities. -/
def FloatVal.isZero : FloatVal → Bool
  | .fin a => a == 0
  | _ => false

/-- `np.sum` over the `F` feature columns (IEEE addition, left to right). -/
def fsum (F : Nat) (f : Nat → FloatVal) : FloatVal :=
  (List.range F).foldl (fun acc i => acc.add (f i)) (.fin 0)

/-- `np.nansum` over the `F` feature columns: NaN terms count as zero
(infinities still propagate, and mixed infinities give NaN). -/
def fnansum (F : Nat) (f : Nat → FloatVal) : FloatVal :=
  (List.range F).foldl
    (fun acc i => acc.add (if f i = FloatVal.nan then .fin 0 else f i)) (.fin 0)

/-- `norm_vector = col_sums/overall_sum` of the single-item feature encoder,
as the floats the source computes: `0/0` cells are NaN (and nonzero cells
over a zero `overall_sum` are `±inf`), they are not collapsed to 0. -/
def fe_norm_vector_float (prefs : RatingMatrix) (features : Nat → Nat → ℚ)
    (movies2 : String → Nat) (user : String) (I F : Nat) : Nat → FloatVal :=
  fun f => FloatVal.div
    (.fin (col_sums I (feature_preference features prefs movies2 user) f))
    (.fin (overall_sum I F (feature_preference features prefs movies2 user)))

/-- The float `norm_sum` computed by `get_FE_recommendations_single` for the
excluded item: `np.sum` of `features[excluded] * norm_vector`.  NaN whenever
`norm_vector` has a NaN entry (in particular whenever `overall_sum = 0`). -/
def fe_single_norm_sum (prefs : RatingMatrix) (features : Nat → Nat → ℚ)
    (user : String) (movies2 : String → Nat) (excluded : String)
    (I F : Nat) : FloatVal :=
  fsum F (fun f => FloatVal.mul (.fin (features (movies2 excluded - 1) f))
    (fe_norm_vector_float prefs features movies2 user I F f))

/-- Embedding of `get_FE_recommendations_single(prefs, features, user,
sim_threshold, movies, movies2, ii_matrix, excluded)` with the floating-point
special values modelled explicitly.  The guard is the float comparison
`norm_sum == 0` (false for a NaN `norm_sum`); past it, the score is
`np.nansum(avgs * features[excluded] * (norm_weight/norm_sum))`, which
launders an all-NaN vector to the float `0.0`.  The `try/except` of the
source is dead code in this model: none of the numpy operations raises
(division by zero only emits a warning), so the function is total. -/
def get_FE_recommendations_single (prefs : RatingMatrix)
    (features : Nat → Nat → ℚ) (user : String) (movies2 : String → Nat)
    (excluded : String) (I F : Nat) : Option FloatVal × String :=
  let fp := feature_preference features prefs movies2 user
  let e := movies2 excluded - 1
  if (fe_single_norm_sum prefs features user movies2 excluded I F).isZero then
    (none, excluded)
  else
    (some (fnansum F (fun f =>
      FloatVal.mul
        (FloatVal.mul
          (FloatVal.div (.fin (col_sums I fp f)) (.fin (nonzero_count I fp f : ℚ)))
          (.fin (features e f)))
        (FloatVal.div
          (FloatVal.mul (.fin (features e f))
            (fe_norm_vector_float prefs features movies2 user I F f))
          (fe_single_norm_sum prefs features user movies2 excluded I F)))),
      excluded)

/-- Replace each of one user's ratings `r` by `c * r` (for claim C9). -/
def scaleUserRatings (prefs : RatingMatrix) (user : String) (c : ℚ) : RatingMatrix :=
  { prefs with rate := fun u it => if u = user then c * prefs.rate u it else prefs.rate u it }

/-- Item-item similarity mapping (`ii_matrix`): nested dictionary from anchor
title to neighbour title to score; `none` models a missing key. -/
abbrev IIMatrix := String → String → Option ℚ

/-- Point update of a matrix cell, modelling `copy_cosim[r][c] = v`. -/
def updCell (m : Cosim) (r c : Nat) (v : ℚ) : Cosim :=
  fun r' c' => if r' = r ∧ c' = c then v else m r' c'

/-- The per-pair weight determined by the hybrid fill-in logic, as a function
of the cosine cell value `c`: below-threshold pairs are skipped; an exactly
zero cell is filled in from the item-item matrix (skipped when the entry is
missing or non-positive, scaled by `HYBRID_WEIGHTING` when `weighted`);
any other cell is used as-is. -/
def hybrid_weight (ii : IIMatrix) (weighted : Bool) (sim_threshold : ℚ)
    (ti tj : String) (c : ℚ) : Option ℚ :=
  if c < sim_threshold then none
  else if c = 0 then
    match ii ti tj with
    | none => none
    | some v =>
      if v ≤ 0 then none
      else some (if weighted then v * HYBRID_WEIGHTING else v)
  else some c

/-- One iteration of the inner `j` loop of the hybrid recommenders, threading
the mutable working copy of the cosine matrix: `ti`/`i` are the anchor item's
title and 1-based id (`movies[str(i)]`/`i` in the full recommender,
`excluded`/`int(movies2[excluded])` in the single variant). -/
def hybrid_step (prefs : RatingMatrix) (user : String) (sim_threshold : ℚ)
    (movies : Nat → String) (ii : IIMatrix) (weighted : Bool) (ti : String)
    (i : Nat) (st : (ℚ × ℚ) × Cosim) (j : Nat) : (ℚ × ℚ) × Cosim :=
  let nd := st.1
  let cc := st.2
  if movies j ∉ prefs.items user then st
  else if i = j then st
  else if cc (i - 1) (j - 1) < sim_threshold then st
  else if cc (i - 1) (j - 1) = 0 then
    match ii ti (movies j) with
    | none => st
    | some v =>
      if v ≤ 0 then st
      else
        let w := if weighted then v * HYBRID_WEIGHTING else v
        let cc' := updCell cc (i - 1) (j - 1) w
        ((nd.1 + prefs.rate user (movies j) * cc' (i - 1) (j - 1),
          nd.2 + cc' (i - 1) (j - 1)), cc')
  else ((nd.1 + prefs.rate user (movies j) * cc (i - 1) (j - 1),
         nd.2 + cc (i - 1) (j - 1)), cc)

/-- Embedding of `get_hybrid_recommendations(prefs, cosim_matrix, user,
sim_threshold, movies, ii_matrix, weighted, n)` with `N = len(cosim_matrix)`.
The body works on `copy_cosim = deepcopy(cosim_matrix)`, threaded through the
folds; the second component of the result is the matrix object the caller
passed in, as left by the call (mutations land on the private copy only).
As with the TF-IDF recommender, the source returns the raw `recs` list and
only prints `sorted(recs, reverse=True)[:n]`. -/
def get_hybrid_recommendations (prefs : RatingMatrix) (cosim_matrix : Cosim)
    (user : String) (sim_threshold : ℚ) (movies : Nat → String) (ii : IIMatrix)
    (weighted : Bool) (N n : Nat) : List (ℚ × String) × Cosim :=
  let _ := n
  let copy_cosim := cosim_matrix
  let final := (ids1to N).foldl (fun (st : List (ℚ × String) × Cosim) i =>
    if movies i ∈ prefs.items user then st
    else
      let r := (ids1to N).foldl
        (hybrid_step prefs user sim_threshold movies ii weighted (movies i) i)
        ((0, 0), st.2)
      if 0 < r.1.1 ∧ 0 < r.1.2 then
        (st.1 ++ [(r.1.1 / r.1.2, movies i)], r.2)
      else (st.1, r.2)) ([], copy_cosim)
  (final.1, cosim_matrix)

/-- Pure accumulator for the hybrid recommenders: the same `(num, denom)`
sums expressed through `hybrid_weight` applied to the cells of the original
(unmutated) cosine matrix. -/
def hybrid_accum (prefs : RatingMatrix) (cm : Cosim) (user : String)
    (sim_threshold : ℚ) (movies : Nat → String) (ii : IIMatrix)
    (weighted : Bool) (N : Nat) (ti : String) (i : Nat) : ℚ × ℚ :=
  (ids1to N).foldl (fun nd j =>
    if movies j ∉ prefs.items user then nd
    else if i = j then nd
    else
      match hybrid_weight ii weighted sim_threshold ti (movies j) (cm (i - 1) (j - 1)) with
      | none => nd
      | some w => (nd.1 + prefs.rate user (movies j) * w, nd.2 + w)) (0, 0)

/-- Declarative form of the full hybrid recommender (used to state that the
threaded computation reads each cosine cell before writing it, so the scores
depend only on the original matrix). -/
def get_hybrid_recommendations_spec (prefs : RatingMatrix) (cosim_matrix : Cosim)
    (user : String) (sim_threshold : ℚ) (movies : Nat → String) (ii : IIMatrix)
    (weighted : Bool) (N : Nat) : List (ℚ × String) :=
  (ids1to N).foldl (fun recs i =>
    if movies i ∈ prefs.items user then recs
    else
      let nd := hybrid_accum prefs cosim_matrix user sim_threshold movies ii
        weighted N (movies i) i
      if 0 < nd.1 ∧ 0 < nd.2 then recs ++ [(nd.1 / nd.2, movies i)] else recs) []

/-- Embedding of `get_hybrid_recommendations_single(prefs, cosim_matrix, user,
sim_threshold, movies, movies2, ii_matrix, excluded, weighted)` with
`N = len(cosim_matrix)`; the second component again models the caller's
matrix object after the call. -/
def get_hybrid_recommendations_single (prefs : RatingMatrix)
    (cosim_matrix : Cosim) (user : String) (sim_threshold : ℚ)
    (movies : Nat → String) (movies2 : String → Nat) (ii : IIMatrix)
    (excluded : String) (weighted : Bool) (N : Nat) :
    (Option ℚ × String) × Cosim :=
  let copy_cosim := cosim_matrix
  let r := (ids1to N).foldl
    (hybrid_step prefs user sim_threshold movies ii weighted excluded (movies2 excluded))
    ((0, 0), copy_cosim)
  if 0 < r.1.1 ∧ 0 < r.1.2 then ((some (r.1.1 / r.1.2), excluded), cosim_matrix)
  else ((none, excluded), cosim_matrix)

/-- Declarative form of the single-item hybrid recommender. -/
def get_hybrid_recommendations_single_spec (prefs : RatingMatrix)
    (cosim_matrix : Cosim) (user : String) (sim_threshold : ℚ)
    (movies : Nat → String) (movies2 : String → Nat) (ii : IIMatrix)
    (excluded : String) (weighted : Bool) (N : Nat) : Option ℚ × String :=
  let nd := hybrid_accum prefs cosim_matrix user sim_threshold movies ii
    weighted N excluded (movies2 excluded)
  if 0 < nd.1 ∧ 0 < nd.2 then (some (nd.1 / nd.2), excluded)
  else (none, excluded)

/-- `del newPrefs[i][out]`: remove one (user, item) entry from the matrix. -/
def delEntry (m : RatingMatrix) (u it : String) : RatingMatrix :=
  { m with items := fun v => if v = u then (m.items u).erase it else m.items v }

/-- `newPrefs[i][out] = save`: put an entry back with the given rating. -/
def setEntry (m : RatingMatrix) (u it : String) (r : ℚ) : RatingMatrix :=
  { m with
    items := fun v => if v = u then insert it (m.items v) else m.items v,
    rate := fun v j => if v = u ∧ j = it then r else m.rate v j }

/-- A single-item scoring algorithm as `loo_cv_sim` consumes it: given the
working rating matrix, the user and the excluded item, produce
`(score_or_None, excluded_title)` — or raise (modelled by `Except.error`). -/
abbrev Algo := RatingMatrix → String → String → Except Unit (Option ℚ × String)

/-- The trial loop of `loo_cv_sim`: for each `(user, item)` pair, save and
delete the entry from the working copy, run the scoring call, restore the
entry, and record the squared error when a usable prediction came back for
exactly the excluded item.  A raised exception propagates immediately (there
is no `try/finally` around the scoring call), carrying the working copy in
whatever state it was left. -/
def loo_trials (prefs : RatingMatrix) (algo : Algo) :
    List (String × String) → RatingMatrix → List ℚ →
    Except Unit (List ℚ) × RatingMatrix
  | [], newPrefs, errs => (Except.ok errs, newPrefs)
  | (i, out) :: rest, newPrefs, errs =>
    let save := newPrefs.rate i out
    let newPrefs1 := delEntry newPrefs i out
    match algo newPrefs1 i out with
    | Except.error e => (Except.error e, newPrefs1)
    | Except.ok r0 =>
      let newPrefs2 := setEntry newPrefs1 i out save
      let errs' :=
        if r0.2 = out ∧ r0.1 ≠ none ∧ r0.1 ≠ some 0 then
          errs ++ [(prefs.rate i r0.2 - r0.1.getD 0) ^ 2]
        else errs
      loo_trials prefs algo rest newPrefs2 errs'

/-- Embedding of `loo_cv_sim(prefs, sim, algo, ...)` restricted to its effect
on rating matrices: the working copy starts as `deepcopy(prefs)`, trials run
over every `(user, item)` pair of the original matrix, and the result is
`((error_list_or_exception, final working copy), the caller's matrix as left
by the call)`.  Metric printing and the Excel writes are external I/O. -/
def loo_cv_sim (prefs : RatingMatrix) (algo : Algo) :
    (Except Unit (List ℚ) × RatingMatrix) × RatingMatrix :=
  let newPrefs := prefs
  let trials := (prefs.users.sort (· ≤ ·)).flatMap
    (fun i => ((prefs.items i).sort (· ≤ ·)).map (fun out => (i, out)))
  (loo_trials prefs algo trials newPrefs [], prefs)

/-- Concrete 4-item catalog for evaluating the TF-IDF recommender. -/
def moviesC1 : Nat → String := fun i =>
  if i = 1 then "A" else if i = 2 then "B" else if i = 3 then "C"
  else if i = 4 then "D" else ""

/-- Concrete rating matrix: one user who rated "A" with 1.0 and "B" with 2.0. -/
def mC1 : RatingMatrix where
  users := {"u"}
  items := fun u => if u = "u" then {"A", "B"} else ∅
  rate := fun _ it => if it = "A" then 1 else if it = "B" then 2 else 0

/-- Concrete cosine matrix: C is similar only to A, D only to B. -/
def cosimC1 : Cosim := fun r c =>
  if r = c then 1
  else if r = 2 ∧ c = 0 then 1
  else if r = 3 ∧ c = 1 then 1
  else 0

/-- Item-item matrix assigning similarity 0.8 to every pair (for witnesses). -/
def iiC4 : IIMatrix := fun _ _ => some (4 / 5)

/-- Concrete rating matrix for the Pearson counterexample: two users with the
identical ratings {x: 1.0, y: 2.0}, so they share m = 2 items. -/
def mC3 : RatingMatrix where
  users := {"A", "B"}
  items := fun u => if u = "A" ∨ u = "B" then {"x", "y"} else ∅
  rate := fun _ it => if it = "x" then 1 else if it = "y" then 2 else 0

/-- Concrete one-user one-item rating matrix for the LOOCV witness. -/
def mC2 : RatingMatrix where
  users := {"u"}
  items := fun u => if u = "u" then {"x"} else ∅
  rate := fun _ _ => 3

/-- A trivial scoring algorithm (always "no prediction") for the LOOCV witness. -/
def algoC2 : Algo := fun _ _ out => Except.ok (none, out)

/-- Catalog titles "M1", "M2", ... used by the feature-encoding examples. -/
def moviesC8 : Nat → String := fun i => "M" ++ toString i

/-- Title-to-id mapping for the feature-encoding examples (only the rated
title "M1" is ever looked up). -/
def tidC8 : String → Nat := fun t => if t = "M1" then 1 else 0

/-- Single-genre feature matrix: every item has the one feature set. -/
def featuresC8 : Nat → Nat → ℚ := fun _ f => if f = 0 then 1 else 0

/-- Rating matrix for the feature-encoding examples: one user who rated
"M1" with 2.0; with a 13-item catalog this yields 12 unrated candidates,
each with predicted score 2. -/
def mC8 : RatingMatrix where
  users := {"u"}
  items := fun u => if u = "u" then {"M1"} else ∅
  rate := fun _ _ => 2

/-- Feature matrix where only item id 1 (row 0) carries the single feature;
the excluded item "M2" (row 1) has an all-zero feature row. -/
def featuresC7 : Nat → Nat → ℚ := fun i f => if i = 0 ∧ f = 0 then 1 else 0

/-- Title-to-id mapping for the zero-feature-row witness. -/
def tidC7 : String → Nat := fun t =>
  if t = "M1" then 1 else if t = "M2" then 2 else 0

/-- Rating matrix whose single user has rated nothing (degenerate input for
the feature-encoding single-item variant). -/
def mC7 : RatingMatrix where
  users := {"u"}
  items := fun _ => ∅
  rate := fun _ _ => 0

theorem charListLe_total : ∀ as bs, charListLe as bs = true ∨ charListLe bs as = true := by
  intro as
  induction as with
  | nil => intro bs; exact Or.inl rfl
  | cons a as ih =>
    intro bs
    cases bs with
    | nil => exact Or.inr rfl
    | cons b bs =>
      simp only [charListLe]
      rcases Nat.lt_trichotomy a.toNat b.toNat with h | h | h
      · left; rw [if_pos h]
      · have h1 : ¬ a.toNat < b.toNat := by omega
        have h2 : ¬ b.toNat < a.toNat := by omega
        rw [if_neg h1, if_neg h2, if_neg h2, if_neg h1]
        exact ih bs
      · right; rw [if_pos h]

theorem charListLe_trans : ∀ as bs cs, charListLe as bs = true →
    charListLe bs cs = true → charListLe as cs = true := by
  intro as
  induction as with
  | nil => intro bs cs _ _; rfl
  | cons a as ih =>
    intro bs cs h1 h2
    cases bs with
    | nil => exact absurd h1 (by simp [charListLe])
    | cons b bs =>
      cases cs with
      | nil => exact absurd h2 (by simp [charListLe])
      | cons c cs =>
        simp only [charListLe] at h1 h2 ⊢
        by_cases hab : a.toNat < b.toNat
        · by_cases hbc : b.toNat < c.toNat
          · rw [if_pos (by omega)]
          · by_cases hcb : c.toNat < b.toNat
            · rw [if_neg hbc, if_pos hcb] at h2; exact absurd h2 (by simp)
            · rw [if_pos (by omega)]
        · by_cases hba : b.toNat < a.toNat
          · rw [if_neg hab, if_pos hba] at h1; exact absurd h1 (by simp)
          · by_cases hbc : b.toNat < c.toNat
            · rw [if_pos (by omega)]
            · by_cases hcb : c.toNat < b.toNat
              · rw [if_neg hbc, if_pos hcb] at h2; exact absurd h2 (by simp)
              · rw [if_neg hab, if_neg hba] at h1
                rw [if_neg hbc, if_neg hcb] at h2
                rw [if_neg (by omega), if_neg (by omega)]
                exact ih bs cs h1 h2

theorem charListLe_antisymm : ∀ as bs, charListLe as bs = true →
    charListLe bs as = true → as = bs := by
  intro as
  induction as with
  | nil =>
    intro bs _ h2
    cases bs with
    | nil => rfl
    | cons b bs => exact absurd h2 (by simp [charListLe])
  | cons a as ih =>
    intro bs h1 h2
    cases bs with
    | nil => exact absurd h1 (by simp [charListLe])
    | cons b bs =>
      simp only [charListLe] at h1 h2
      rcases Nat.lt_trichotomy a.toNat b.toNat with hab | hab | hab
      · rw [if_neg (by omega), if_pos (by omega)] at h2; exact absurd h2 (by simp)
      · rw [if_neg (by omega), if_neg (by omega)] at h1 h2
        have ha : a = b := Char.eq_of_val_eq (UInt32.toNat.inj hab)
        rw [ha, ih bs h1 h2]
      · rw [if_neg (by omega), if_pos (by omega)] at h1; exact absurd h1 (by simp)

theorem strLe_total (a b : String) : strLe a b ∨ strLe b a :=
  charListLe_total a.data b.data

theorem strLe_trans {a b c : String} (h1 : strLe a b) (h2 : strLe b c) : strLe a c :=
  charListLe_trans a.data b.data c.data h1 h2

theorem strLe_antisymm {a b : String} (h1 : strLe a b) (h2 : strLe b a) : a = b := by
  cases a; cases b
  exact congrArg String.mk (charListLe_antisymm _ _ h1 h2)

instance : IsTotal (ℚ × String) pairGE :=
  ⟨fun a b => by
    unfold pairGE pairLe
    rcases lt_trichotomy a.1 b.1 with h | h | h
    · exact Or.inr (Or.inl h)
    · rcases strLe_total a.2 b.2 with h2 | h2
      · exact Or.inr (Or.inr ⟨h, h2⟩)
      · exact Or.inl (Or.inr ⟨h.symm, h2⟩)
    · exact Or.inl (Or.inl h)⟩

instance : IsTrans (ℚ × String) pairGE :=
  ⟨fun a b c hab hbc => by
    unfold pairGE pairLe at *
    rcases hbc with h1 | ⟨h1e, h1s⟩ <;> rcases hab with h2 | ⟨h2e, h2s⟩
    · exact Or.inl (lt_trans h1 h2)
    · exact Or.inl (h2e ▸ h1)
    · exact Or.inl (h1e ▸ h2)
    · exact Or.inr ⟨h1e.trans h2e, strLe_trans h1s h2s⟩⟩

instance : IsAntisymm (ℚ × String) pairGE :=
  ⟨fun a b hab hba => by
    unfold pairGE pairLe at *
    rcases hab with h1 | ⟨h1e, h1s⟩ <;> rcases hba with h2 | ⟨h2e, h2s⟩
    · exact absurd (lt_trans h1 h2) (lt_irrefl _)
    · exact absurd (h2e ▸ h1) (lt_irrefl _)
    · exact absurd (h1e ▸ h2) (lt_irrefl _)
    · exact Prod.ext h1e.symm (strLe_antisymm h2s h1s)⟩

theorem RatingMatrix.ext_iff {m₁ m₂ : RatingMatrix} :
    m₁ = m₂ ↔ m₁.users = m₂.users ∧ m₁.items = m₂.items ∧ m₁.rate = m₂.rate := by
  constructor
  · intro h; subst h; exact ⟨rfl, rfl, rfl⟩
  · rintro ⟨h₁, h₂, h₃⟩; cases m₁; cases m₂; simp_all

theorem sortDesc_sorted (l : List (ℚ × String)) : List.Sorted pairGE (sortDesc l) :=
  List.sorted_insertionSort pairGE l

theorem sortDesc_perm (l : List (ℚ × String)) : List.Perm (sortDesc l) l :=
  List.perm_insertionSort pairGE l

theorem sortDesc_eq_of_perm {l₁ l₂ : List (ℚ × String)} (h : List.Perm l₁ l₂) :
    sortDesc l₁ = sortDesc l₂ :=
  List.eq_of_perm_of_sorted ((sortDesc_perm l₁).trans (h.trans (sortDesc_perm l₂).symm))
    (sortDesc_sorted l₁) (sortDesc_sorted l₂)

theorem sortDesc_of_sorted {l : List (ℚ × String)} (h : List.Sorted pairGE l) :
    sortDesc l = l :=
  List.eq_of_perm_of_sorted (sortDesc_perm l) (sortDesc_sorted l) h

theorem sortDesc_append_singleton {s : List (ℚ × String)} (hs : List.Sorted pairGE s)
    (x : ℚ × String) : sortDesc (s ++ [x]) = List.orderedInsert pairGE x s :=
  List.eq_of_perm_of_sorted
    ((sortDesc_perm (s ++ [x])).trans
      ((List.perm_append_singleton x s).trans (List.perm_orderedInsert pairGE x s).symm))
    (sortDesc_sorted (s ++ [x])) (hs.orderedInsert x s)

theorem take_orderedInsert {α : Type} (r : α → α → Prop) [DecidableRel r] :
    ∀ (n : Nat) (x : α) (s : List α),
      (List.orderedInsert r x (s.take n)).take n = (List.orderedInsert r x s).take n := by
  intro n
  induction n with
  | zero => intro x s; simp
  | succ k ih =>
    intro x s
    cases s with
    | nil => simp
    | cons y ys =>
      simp only [List.take_succ_cons, List.orderedInsert]
      by_cases h : r x y
      · simp only [if_pos h, List.take_succ_cons]
        congr 1
        cases k with
        | zero => simp
        | succ m =>
          simp only [List.take_succ_cons]
          congr 1
          rw [List.take_take]
          congr 1
          omega
      · simp only [if_neg h, List.take_succ_cons]
        congr 1
        exact ih x ys

theorem cap10_sorted {n : Nat} {l : List (ℚ × String)} (h : List.Sorted pairGE l) :
    List.Sorted pairGE (cap10 n l) := by
  unfold cap10
  split
  · exact h.sublist (List.take_sublist n l)
  · exact h

theorem cap10_step {n : Nat} (hn : 10 ≤ n) {s : List (ℚ × String)}
    (hs : List.Sorted pairGE s) (x : ℚ × String) :
    cap10 n (sortDesc (cap10 n s ++ [x])) = cap10 n (sortDesc (s ++ [x])) := by
  by_cases h10 : 10 < s.length
  · by_cases hsn : s.length ≤ n
    · have : cap10 n s = s := by unfold cap10; rw [if_pos h10, List.take_of_length_le hsn]
      rw [this]
    · have hcap : cap10 n s = s.take n := by unfold cap10; rw [if_pos h10]
      have hts : List.Sorted pairGE (s.take n) := hs.sublist (List.take_sublist n s)
      have hlt : (s.take n).length = n := by
        rw [List.length_take]; omega
      rw [hcap, sortDesc_append_singleton hts x, sortDesc_append_singleton hs x]
      have hl1 : (List.orderedInsert pairGE x (s.take n)).length = n + 1 := by
        rw [List.orderedInsert_length (r := pairGE), hlt]
      have hl2 : (List.orderedInsert pairGE x s).length = s.length + 1 := by
        rw [List.orderedInsert_length (r := pairGE)]
      unfold cap10
      rw [if_pos (by omega), if_pos (by omega)]
      exact take_orderedInsert pairGE n x s
  · have : cap10 n s = s := by unfold cap10; rw [if_neg h10]
    rw [this]

theorem greedy_eq_cap_sortDesc {n : Nat} (hn : 10 ≤ n) (cands : List (ℚ × String)) :
    cands.foldl (fun recs c => cap10 n (sortDesc (recs ++ [c]))) [] =
      cap10 n (sortDesc cands) := by
  induction cands using List.reverseRecOn with
  | nil => simp [sortDesc, cap10]
  | append_singleton l x ih =>
    rw [List.foldl_append, List.foldl_cons, List.foldl_nil, ih]
    have h1 : cap10 n (sortDesc (cap10 n (sortDesc l) ++ [x])) =
        cap10 n (sortDesc (sortDesc l ++ [x])) :=
      cap10_step hn (sortDesc_sorted l) x
    rw [h1]
    congr 1
    exact sortDesc_eq_of_perm (((sortDesc_perm l).append (List.Perm.refl [x])))

theorem foldl_match_eq_filterMap {α β γ : Type} (h : α → Option β) (g : γ → β → γ) :
    ∀ (l : List α) (init : γ),
      l.foldl (fun acc a => match h a with | none => acc | some b => g acc b) init =
        (l.filterMap h).foldl g init := by
  intro l
  induction l with
  | nil => intro init; simp
  | cons a l ih =>
    intro init
    rw [List.foldl_cons, List.filterMap_cons]
    cases hh : h a with
    | none => simp only [hh]; exact ih init
    | some b => simp only [hh, List.foldl_cons]; exact ih (g init b)

theorem foldl_match_map_eq {α γ : Type} (h : α → Option ℚ) (t : α → String)
    (g : γ → (ℚ × String) → γ) :
    ∀ (l : List α) (init : γ),
      l.foldl (fun acc a => match h a with | none => acc | some s => g acc (s, t a)) init =
        (l.filterMap (fun a => (h a).map (fun s => (s, t a)))).foldl g init := by
  intro l
  induction l with
  | nil => intro init; simp
  | cons a l ih =>
    intro init
    rw [List.foldl_cons, List.filterMap_cons]
    cases hh : h a with
    | none => simp only [hh, Option.map_none]; exact ih init
    | some b => simp only [hh, Option.map_some, List.foldl_cons]; exact ih (g init (b, t a))

theorem get_FE_eq_greedy (prefs : RatingMatrix) (features : Nat → Nat → ℚ)
    (movie_title_to_id : String → Nat) (movies : Nat → String) (user : String)
    (I F n : Nat) :
    get_FE_recommendations prefs features movie_title_to_id movies user I F n =
      (fe_candidates prefs features movie_title_to_id movies user I F).foldl
        (fun recs c => cap10 n (sortDesc (recs ++ [c]))) [] := by
  unfold get_FE_recommendations fe_candidates
  exact foldl_match_map_eq
    (fun id => fe_score features I F
      (feature_preference features prefs movie_title_to_id user)
      (fun f => col_sums I (feature_preference features prefs movie_title_to_id user) f /
        overall_sum I F (feature_preference features prefs movie_title_to_id user)) id)
    (fun id => movies (id + 1))
    (fun recs c => cap10 n (sortDesc (recs ++ [c])))
    ((List.range I).filter (fun id => id ∉ ratedIds prefs movie_title_to_id user)) []

/-- C8 (amended): for every rating matrix, feature matrix, catalog, user, and
limit `n ≥ 10`, `get_FE_recommendations` — which re-sorts the accumulating
list and caps it to `n` inside the per-item loop as soon as its length
exceeds 10 — returns the same final list as the variant that appends every
candidate pair, sorts once descending after the loop, and truncates to `n`
if the list exceeds 10 entries. -/
theorem c8_fe_cap_equiv (prefs : RatingMatrix) (features : Nat → Nat → ℚ)
    (movie_title_to_id : String → Nat) (movies : Nat → String) (user : String)
    (I F n : Nat) (hn : 10 ≤ n) :
    get_FE_recommendations prefs features movie_title_to_id movies user I F n =
      get_FE_recommendations_sortOnce prefs features movie_title_to_id movies user I F n := by
  rw [get_FE_eq_greedy, greedy_eq_cap_sortDesc hn]
  rfl

/-- C8 counterexample: with 12 candidate items and limit `n = 9 < 10`, the
in-loop capping returns a 10-element list while the sort-once-then-truncate
variant returns 9 elements, so the claim fails as stated for arbitrary `n`. -/
theorem c8_counterexample :
    get_FE_recommendations mC8 featuresC8 tidC8 moviesC8 "u" 13 1 9 ≠
      get_FE_recommendations_sortOnce mC8 featuresC8 tidC8 moviesC8 "u" 13 1 9 := by
  decide

/-- Witness for C8's amended theorem at the concrete 13-item input, `n = 15`. -/
theorem c8_fe_cap_equiv_witness :
    10 ≤ 15 ∧
      get_FE_recommendations mC8 featuresC8 tidC8 moviesC8 "u" 13 1 15 =
        get_FE_recommendations_sortOnce mC8 featuresC8 tidC8 moviesC8 "u" 13 1 15 :=
  ⟨by decide, c8_fe_cap_equiv mC8 featuresC8 tidC8 moviesC8 "u" 13 1 15 (by decide)⟩

/-- C1: at the concrete failing input (4-item catalog, user "u" rated A with
1.0 and B with 2.0, threshold 0, `n = 1`), `get_TFIDF_recommendations`
returns the raw accumulation list `[(1, "C"), (2, "D")]` — ascending, not
descending, and with 2 > n entries — because the source only prints
`sorted(recs, reverse=True)[:n]` and returns the unsorted `recs`.  The same
holds for `get_hybrid_recommendations` with an empty item-item matrix. -/
theorem c1_returns_unsorted_untruncated :
    get_TFIDF_recommendations mC1 cosimC1 "u" 0 moviesC1 4 1 = [(1, "C"), (2, "D")] ∧
    ¬ List.Sorted pairGE (get_TFIDF_recommendations mC1 cosimC1 "u" 0 moviesC1 4 1) ∧
    1 < (get_TFIDF_recommendations mC1 cosimC1 "u" 0 moviesC1 4 1).length ∧
    (get_hybrid_recommendations mC1 cosimC1 "u" 0 moviesC1 (fun _ _ => none) false 4 1).1 =
      [(1, "C"), (2, "D")] := by
  refine ⟨by decide, ?_, by decide, by decide⟩
  intro h
  have h2 : get_TFIDF_recommendations mC1 cosimC1 "u" 0 moviesC1 4 1 =
      [(1, "C"), (2, "D")] := by decide
  rw [h2] at h
  have := List.rel_of_sorted_cons h (2, "D") (by simp)
  revert this
  decide

theorem foldl_guard_append {α β : Type} (p : α → Prop) [DecidablePred p] (g : α → β) :
    ∀ (l : List α) (acc : List β),
      l.foldl (fun recs a => if p a then recs ++ [g a] else recs) acc =
        acc ++ (l.filter (fun a => decide (p a))).map g := by
  intro l
  induction l with
  | nil => intro acc; simp
  | cons a l ih =>
    intro acc
    rw [List.foldl_cons, List.filter_cons]
    by_cases h : p a
    · simp only [if_pos h, decide_eq_true h, ih, List.map_cons]
      simp
    · simp only [if_neg h, decide_eq_false h, ih]
      simp


theorem ids1to_nodup (N : Nat) : (ids1to N).Nodup :=
  (List.nodup_range N).map (fun a b h => by omega)

theorem ids1to_pos (N : Nat) : ∀ j ∈ ids1to N, 1 ≤ j := by
  intro j hj
  rcases List.mem_map.mp hj with ⟨a, _, rfl⟩
  omega

theorem updCell_self (m : Cosim) (r c : Nat) (v : ℚ) : updCell m r c v r c = v := by
  simp [updCell]

theorem updCell_other (m : Cosim) (r c : Nat) (v : ℚ) (a b : Nat)
    (h : ¬(a = r ∧ b = c)) : updCell m r c v a b = m a b := by
  simp only [updCell, if_neg h]

theorem hybrid_step_fst (prefs : RatingMatrix) (user : String) (t : ℚ)
    (movies : Nat → String) (ii : IIMatrix) (weighted : Bool) (ti : String)
    (i j : Nat) (nd : ℚ × ℚ) (cc : Cosim) :
    (hybrid_step prefs user t movies ii weighted ti i (nd, cc) j).1 =
      if movies j ∉ prefs.items user then nd
      else if i = j then nd
      else
        match hybrid_weight ii weighted t ti (movies j) (cc (i - 1) (j - 1)) with
        | none => nd
        | some w => (nd.1 + prefs.rate user (movies j) * w, nd.2 + w) := by
  unfold hybrid_step hybrid_weight
  by_cases h1 : movies j ∉ prefs.items user
  · simp only [if_pos h1]
  · simp only [if_neg h1]
    by_cases h2 : i = j
    · simp only [if_pos h2]
    · simp only [if_neg h2]
      by_cases h3 : cc (i - 1) (j - 1) < t
      · simp [h3]
      · simp only [if_neg h3]
        by_cases h4 : cc (i - 1) (j - 1) = 0
        · simp only [if_pos h4]
          cases hii : ii ti (movies j) with
          | none => rfl
          | some v =>
            by_cases h5 : v ≤ 0
            · simp only [if_pos h5]
            · simp only [if_neg h5, updCell_self]
        · simp only [if_neg h4]

theorem hybrid_step_snd (prefs : RatingMatrix) (user : String) (t : ℚ)
    (movies : Nat → String) (ii : IIMatrix) (weighted : Bool) (ti : String)
    (i j : Nat) (nd : ℚ × ℚ) (cc : Cosim) (a b : Nat) (h : ¬(a = i - 1 ∧ b = j - 1)) :
    (hybrid_step prefs user t movies ii weighted ti i (nd, cc) j).2 a b = cc a b := by
  unfold hybrid_step
  by_cases h1 : movies j ∉ prefs.items user
  · rw [if_pos h1]
  · rw [if_neg h1]
    by_cases h2 : i = j
    · rw [if_pos h2]
    · rw [if_neg h2]
      by_cases h3 : cc (i - 1) (j - 1) < t
      · rw [if_pos h3]
      · rw [if_neg h3]
        by_cases h4 : cc (i - 1) (j - 1) = 0
        · rw [if_pos h4]
          cases hii : ii ti (movies j) with
          | none => rfl
          | some v =>
            by_cases h5 : v ≤ 0
            · simp [h5]
            · simp only [if_neg h5]
              exact updCell_other cc (i - 1) (j - 1) _ a b h
        · rw [if_neg h4]

theorem hybrid_inner_fold (prefs : RatingMatrix) (user : String) (t : ℚ)
    (movies : Nat → String) (ii : IIMatrix) (weighted : Bool) (ti : String)
    (i : Nat) (orig : Cosim) :
    ∀ (L : List Nat), L.Nodup → (∀ j ∈ L, 1 ≤ j) →
      ∀ (cc : Cosim) (nd : ℚ × ℚ),
        (∀ j ∈ L, cc (i - 1) (j - 1) = orig (i - 1) (j - 1)) →
        (L.foldl (hybrid_step prefs user t movies ii weighted ti i) (nd, cc)).1 =
          L.foldl (fun nd j =>
            if movies j ∉ prefs.items user then nd
            else if i = j then nd
            else
              match hybrid_weight ii weighted t ti (movies j) (orig (i - 1) (j - 1)) with
              | none => nd
              | some w => (nd.1 + prefs.rate user (movies j) * w, nd.2 + w)) nd ∧
        (∀ a b, (a ≠ i - 1 ∨ ∀ j ∈ L, b ≠ j - 1) →
          (L.foldl (hybrid_step prefs user t movies ii weighted ti i) (nd, cc)).2 a b =
            cc a b) := by
  intro L
  induction L with
  | nil => intro _ _ cc nd _; exact ⟨rfl, fun a b _ => rfl⟩
  | cons j L ih =>
    intro hnd hpos cc nd hagree
    have hj1 : 1 ≤ j := hpos j (List.mem_cons_self j L)
    have hjcell : cc (i - 1) (j - 1) = orig (i - 1) (j - 1) :=
      hagree j (List.mem_cons_self j L)
    have hstep1 := hybrid_step_fst prefs user t movies ii weighted ti i j nd cc
    rw [hjcell] at hstep1
    -- the state after the head step
    set st1 := hybrid_step prefs user t movies ii weighted ti i (nd, cc) j with hst1
    have hst1e : st1 = (st1.1, st1.2) := rfl
    have hframe1 : ∀ a b, ¬(a = i - 1 ∧ b = j - 1) → st1.2 a b = cc a b :=
      fun a b h => hybrid_step_snd prefs user t movies ii weighted ti i j nd cc a b h
    have htail : ∀ j' ∈ L, st1.2 (i - 1) (j' - 1) = orig (i - 1) (j' - 1) := by
      intro j' hj'
      have hne : j' ≠ j := fun h => (List.nodup_cons.mp hnd).1 (h ▸ hj')
      have hj'1 : 1 ≤ j' := hpos j' (List.mem_cons_of_mem j hj')
      rw [hframe1 (i - 1) (j' - 1) (fun hc => by omega)]
      exact hagree j' (List.mem_cons_of_mem j hj')
    have ihres := ih (List.nodup_cons.mp hnd).2
      (fun j' hj' => hpos j' (List.mem_cons_of_mem j hj')) st1.2 st1.1 htail
    constructor
    · rw [List.foldl_cons, List.foldl_cons, ← hst1, hst1e]
      rw [ihres.1, hstep1]
    · intro a b hab
      rw [List.foldl_cons, ← hst1, hst1e]
      have hab' : a ≠ i - 1 ∨ ∀ j' ∈ L, b ≠ j' - 1 := by
        rcases hab with h | h
        · exact Or.inl h
        · exact Or.inr (fun j' hj' => h j' (List.mem_cons_of_mem j hj'))
      rw [ihres.2 a b hab']
      apply hframe1
      rintro ⟨ha, hb⟩
      rcases hab with h | h
      · exact h ha
      · exact h j (List.mem_cons_self j L) hb

theorem hybrid_single_eq_spec (prefs : RatingMatrix) (cosim_matrix : Cosim)
    (user : String) (sim_threshold : ℚ) (movies : Nat → String)
    (movies2 : String → Nat) (ii : IIMatrix) (excluded : String)
    (weighted : Bool) (N : Nat) :
    (get_hybrid_recommendations_single prefs cosim_matrix user sim_threshold
        movies movies2 ii excluded weighted N).1 =
      get_hybrid_recommendations_single_spec prefs cosim_matrix user sim_threshold
        movies movies2 ii excluded weighted N := by
  have h := (hybrid_inner_fold prefs user sim_threshold movies ii weighted excluded
    (movies2 excluded) cosim_matrix (ids1to N) (ids1to_nodup N) (ids1to_pos N)
    cosim_matrix ((0 : ℚ), (0 : ℚ)) (fun j _ => rfl)).1
  unfold get_hybrid_recommendations_single get_hybrid_recommendations_single_spec
    hybrid_accum
  dsimp only
  rw [← h]
  by_cases hc : 0 < ((ids1to N).foldl (hybrid_step prefs user sim_threshold movies ii
      weighted excluded (movies2 excluded)) ((0, 0), cosim_matrix)).1.1 ∧
      0 < ((ids1to N).foldl (hybrid_step prefs user sim_threshold movies ii
        weighted excluded (movies2 excluded)) ((0, 0), cosim_matrix)).1.2
  · rw [if_pos hc, if_pos hc]
  · rw [if_neg hc, if_neg hc]

theorem hybrid_outer_fold (prefs : RatingMatrix) (user : String) (t : ℚ)
    (movies : Nat → String) (ii : IIMatrix) (weighted : Bool) (N : Nat)
    (orig : Cosim) :
    ∀ (Li : List Nat), Li.Nodup → (∀ i ∈ Li, 1 ≤ i) →
      ∀ (cc : Cosim) (recs : List (ℚ × String)),
        (∀ i ∈ Li, ∀ b, cc (i - 1) b = orig (i - 1) b) →
        (Li.foldl (fun (st : List (ℚ × String) × Cosim) i =>
            if movies i ∈ prefs.items user then st
            else
              let r := (ids1to N).foldl
                (hybrid_step prefs user t movies ii weighted (movies i) i) ((0, 0), st.2)
              if 0 < r.1.1 ∧ 0 < r.1.2 then (st.1 ++ [(r.1.1 / r.1.2, movies i)], r.2)
              else (st.1, r.2)) (recs, cc)).1 =
          Li.foldl (fun recs i =>
            if movies i ∈ prefs.items user then recs
            else
              let nd := hybrid_accum prefs orig user t movies ii weighted N (movies i) i
              if 0 < nd.1 ∧ 0 < nd.2 then recs ++ [(nd.1 / nd.2, movies i)] else recs)
            recs := by
  intro Li
  induction Li with
  | nil => intro _ _ cc recs _; rfl
  | cons i Li ih =>
    intro hnd hpos cc recs hagree
    have hi1 : 1 ≤ i := hpos i (List.mem_cons_self i Li)
    rw [List.foldl_cons, List.foldl_cons]
    by_cases hm : movies i ∈ prefs.items user
    · simp only [if_pos hm]
      exact ih (List.nodup_cons.mp hnd).2
        (fun i' hi' => hpos i' (List.mem_cons_of_mem i hi'))
        cc recs (fun i' hi' => hagree i' (List.mem_cons_of_mem i hi'))
    · simp only [if_neg hm]
      have hinner := hybrid_inner_fold prefs user t movies ii weighted (movies i) i
        orig (ids1to N) (ids1to_nodup N) (ids1to_pos N) cc ((0 : ℚ), (0 : ℚ))
        (fun j _ => hagree i (List.mem_cons_self i Li) (j - 1))
      have hr1 : ((ids1to N).foldl
          (hybrid_step prefs user t movies ii weighted (movies i) i) ((0, 0), cc)).1 =
          hybrid_accum prefs orig user t movies ii weighted N (movies i) i := by
        unfold hybrid_accum
        exact hinner.1
      have htail : ∀ i' ∈ Li, ∀ b,
          ((ids1to N).foldl (hybrid_step prefs user t movies ii weighted (movies i) i)
            ((0, 0), cc)).2 (i' - 1) b = orig (i' - 1) b := by
        intro i' hi' b
        have hne : i' ≠ i := fun h => (List.nodup_cons.mp hnd).1 (h ▸ hi')
        have hi'1 : 1 ≤ i' := hpos i' (List.mem_cons_of_mem i hi')
        rw [hinner.2 (i' - 1) b (Or.inl (by omega))]
        exact hagree i' (List.mem_cons_of_mem i hi') b
      have ihres := fun (recs' : List (ℚ × String)) => ih (List.nodup_cons.mp hnd).2
        (fun i' hi' => hpos i' (List.mem_cons_of_mem i hi'))
        ((ids1to N).foldl (hybrid_step prefs user t movies ii weighted (movies i) i)
          ((0, 0), cc)).2 recs' htail
      rw [hr1]
      by_cases hc : 0 < (hybrid_accum prefs orig user t movies ii weighted N
          (movies i) i).1 ∧
          0 < (hybrid_accum prefs orig user t movies ii weighted N (movies i) i).2
      · rw [if_pos hc, if_pos hc]
        exact ihres _
      · rw [if_neg hc, if_neg hc]
        exact ihres _

theorem hybrid_full_eq_spec (prefs : RatingMatrix) (cosim_matrix : Cosim)
    (user : String) (sim_threshold : ℚ) (movies : Nat → String) (ii : IIMatrix)
    (weighted : Bool) (N n : Nat) :
    (get_hybrid_recommendations prefs cosim_matrix user sim_threshold movies ii
        weighted N n).1 =
      get_hybrid_recommendations_spec prefs cosim_matrix user sim_threshold movies ii
        weighted N := by
  unfold get_hybrid_recommendations get_hybrid_recommendations_spec
  exact hybrid_outer_fold prefs user sim_threshold movies ii weighted N cosim_matrix
    (ids1to N) (ids1to_nodup N) (ids1to_pos N) cosim_matrix [] (fun _ _ _ => rfl)

/-- C4: in hybrid scoring, for every candidate pair passing the threshold
check, the item-item substitution is attempted only when the cosine cell is
exactly 0; a missing or non-positive item-item entry skips the pair; an entry
`v > 0` is used as the weight, times `HYBRID_WEIGHTING` when weighting is
enabled; pairs with positive cosine below the threshold are filtered out and
never substituted.  Both hybrid recommenders compute with these weights
applied to the original matrix's cells. -/
theorem c4_hybrid_fill_rule :
    (∀ (ii : IIMatrix) (weighted : Bool) (t : ℚ) (ti tj : String) (c : ℚ),
      ¬ c < t →
        (c ≠ 0 → hybrid_weight ii weighted t ti tj c = some c) ∧
        (c = 0 → ii ti tj = none → hybrid_weight ii weighted t ti tj c = none) ∧
        (c = 0 → ∀ v, ii ti tj = some v → v ≤ 0 →
          hybrid_weight ii weighted t ti tj c = none) ∧
        (c = 0 → ∀ v, ii ti tj = some v → 0 < v →
          hybrid_weight ii weighted t ti tj c =
            some (if weighted then v * HYBRID_WEIGHTING else v))) ∧
    (∀ (ii : IIMatrix) (weighted : Bool) (t : ℚ) (ti tj : String) (c : ℚ),
      0 < c → c < t → hybrid_weight ii weighted t ti tj c = none) ∧
    (∀ (prefs : RatingMatrix) (cosim_matrix : Cosim) (user : String) (t : ℚ)
        (movies : Nat → String) (ii : IIMatrix) (weighted : Bool) (N n : Nat),
      (get_hybrid_recommendations prefs cosim_matrix user t movies ii weighted N n).1 =
        get_hybrid_recommendations_spec prefs cosim_matrix user t movies ii weighted N) ∧
    (∀ (prefs : RatingMatrix) (cosim_matrix : Cosim) (user : String) (t : ℚ)
        (movies : Nat → String) (movies2 : String → Nat) (ii : IIMatrix)
        (excluded : String) (weighted : Bool) (N : Nat),
      (get_hybrid_recommendations_single prefs cosim_matrix user t movies movies2 ii
          excluded weighted N).1 =
        get_hybrid_recommendations_single_spec prefs cosim_matrix user t movies movies2
          ii excluded weighted N) := by
  refine ⟨?_, ?_, hybrid_full_eq_spec, hybrid_single_eq_spec⟩
  · intro ii weighted t ti tj c hct
    refine ⟨?_, ?_, ?_, ?_⟩
    · intro hc0
      unfold hybrid_weight
      rw [if_neg hct, if_neg hc0]
    · intro hc0 hii
      unfold hybrid_weight
      rw [if_neg hct, if_pos hc0, hii]
    · intro hc0 v hii hv
      unfold hybrid_weight
      rw [if_neg hct, if_pos hc0, hii]
      simp only [if_pos hv]
    · intro hc0 v hii hv
      unfold hybrid_weight
      rw [if_neg hct, if_pos hc0, hii]
      simp only [if_neg (not_le.mpr hv)]
  · intro ii weighted t ti tj c hc hct
    unfold hybrid_weight
    rw [if_pos hct]

/-- Witness for C4 at concrete inputs: an item-item value of 0.8 on a zero
cosine cell with weighting enabled yields effective weight 0.6; a positive
cell below the threshold is skipped; and the threaded full recommender agrees
with its declarative form on the 4-item example. -/
theorem c4_hybrid_fill_rule_witness :
    hybrid_weight iiC4 true 0 "a" "b" 0 = some (3 / 5) ∧
    hybrid_weight iiC4 true (1 / 2) "a" "b" (1 / 4) = none ∧
    (get_hybrid_recommendations mC1 cosimC1 "u" 0 moviesC1 iiC4 true 4 15).1 =
      get_hybrid_recommendations_spec mC1 cosimC1 "u" 0 moviesC1 iiC4 true 4 := by
  refine ⟨?_, ?_, c4_hybrid_fill_rule.2.2.1 mC1 cosimC1 "u" 0 moviesC1 iiC4 true 4 15⟩
  · have h := (c4_hybrid_fill_rule.1 iiC4 true 0 "a" "b" 0 (by decide)).2.2.2 rfl
      (4 / 5) rfl (by decide)
    rw [h]
    decide
  · exact c4_hybrid_fill_rule.2.1 iiC4 true (1 / 2) "a" "b" (1 / 4) (by decide) (by decide)

/-- C5: for the full-catalog TF-IDF recommender, a `(score, title)` pair is
produced for item `i` exactly when `i` is unrated and its accumulated
numerator and denominator are both strictly positive, in which case the score
is `num/denom`; and the single-item hybrid variant returns
`(num/denom, excluded)` under the same condition and `(None, excluded)`
otherwise. -/
theorem c5_prediction_condition :
    (∀ (prefs : RatingMatrix) (cosim_matrix : Cosim) (user : String)
        (sim_threshold : ℚ) (movies : Nat → String) (N n : Nat),
      get_TFIDF_recommendations prefs cosim_matrix user sim_threshold movies N n =
        ((ids1to N).filter (fun i => decide (movies i ∉ prefs.items user ∧
            0 < (tfidf_accum prefs cosim_matrix user sim_threshold movies N i).1 ∧
            0 < (tfidf_accum prefs cosim_matrix user sim_threshold movies N i).2))).map
          (fun i => ((tfidf_accum prefs cosim_matrix user sim_threshold movies N i).1 /
              (tfidf_accum prefs cosim_matrix user sim_threshold movies N i).2,
            movies i))) ∧
    (∀ (prefs : RatingMatrix) (cosim_matrix : Cosim) (user : String)
        (sim_threshold : ℚ) (movies : Nat → String) (movies2 : String → Nat)
        (ii : IIMatrix) (excluded : String) (weighted : Bool) (N : Nat),
      (get_hybrid_recommendations_single prefs cosim_matrix user sim_threshold
          movies movies2 ii excluded weighted N).1 =
        if 0 < (hybrid_accum prefs cosim_matrix user sim_threshold movies ii weighted N
              excluded (movies2 excluded)).1 ∧
           0 < (hybrid_accum prefs cosim_matrix user sim_threshold movies ii weighted N
              excluded (movies2 excluded)).2
        then (some ((hybrid_accum prefs cosim_matrix user sim_threshold movies ii
              weighted N excluded (movies2 excluded)).1 /
            (hybrid_accum prefs cosim_matrix user sim_threshold movies ii weighted N
              excluded (movies2 excluded)).2), excluded)
        else (none, excluded)) := by
  constructor
  · intro prefs cosim_matrix user sim_threshold movies N n
    unfold get_TFIDF_recommendations
    have hfun : (fun (recs : List (ℚ × String)) i =>
        if movies i ∈ prefs.items user then recs
        else
          let nd := tfidf_accum prefs cosim_matrix user sim_threshold movies N i
          if 0 < nd.1 ∧ 0 < nd.2 then recs ++ [(nd.1 / nd.2, movies i)] else recs) =
        (fun (recs : List (ℚ × String)) i =>
          if (movies i ∉ prefs.items user ∧
              0 < (tfidf_accum prefs cosim_matrix user sim_threshold movies N i).1 ∧
              0 < (tfidf_accum prefs cosim_matrix user sim_threshold movies N i).2) then
            recs ++ [((tfidf_accum prefs cosim_matrix user sim_threshold movies N i).1 /
              (tfidf_accum prefs cosim_matrix user sim_threshold movies N i).2,
              movies i)]
          else recs) := by
      funext recs i
      by_cases hm : movies i ∈ prefs.items user
      · simp [hm]
      · by_cases hp : 0 < (tfidf_accum prefs cosim_matrix user sim_threshold movies N i).1 ∧
            0 < (tfidf_accum prefs cosim_matrix user sim_threshold movies N i).2
        · simp [hm, hp]
        · simp [hm, hp]
    rw [hfun, foldl_guard_append]
    simp
  · intro prefs cosim_matrix user sim_threshold movies movies2 ii excluded weighted N
    rw [hybrid_single_eq_spec]
    rfl

/-- C6: both hybrid recommenders leave the cosine similarity matrix passed in
by the caller unchanged — all fill-in mutation happens on the private
`deepcopy` — and consequently their outputs are computed from the original
matrix values alone (the declarative forms). -/
theorem c6_hybrid_no_mutation :
    (∀ (prefs : RatingMatrix) (cosim_matrix : Cosim) (user : String) (t : ℚ)
        (movies : Nat → String) (ii : IIMatrix) (weighted : Bool) (N n : Nat),
      (get_hybrid_recommendations prefs cosim_matrix user t movies ii weighted N n).2 =
        cosim_matrix) ∧
    (∀ (prefs : RatingMatrix) (cosim_matrix : Cosim) (user : String) (t : ℚ)
        (movies : Nat → String) (movies2 : String → Nat) (ii : IIMatrix)
        (excluded : String) (weighted : Bool) (N : Nat),
      (get_hybrid_recommendations_single prefs cosim_matrix user t movies movies2 ii
          excluded weighted N).2 = cosim_matrix) ∧
    (∀ (prefs : RatingMatrix) (cosim_matrix : Cosim) (user : String) (t : ℚ)
        (movies : Nat → String) (ii : IIMatrix) (weighted : Bool) (N n : Nat),
      (get_hybrid_recommendations prefs cosim_matrix user t movies ii weighted N n).1 =
        get_hybrid_recommendations_spec prefs cosim_matrix user t movies ii weighted N) ∧
    (∀ (prefs : RatingMatrix) (cosim_matrix : Cosim) (user : String) (t : ℚ)
        (movies : Nat → String) (movies2 : String → Nat) (ii : IIMatrix)
        (excluded : String) (weighted : Bool) (N : Nat),
      (get_hybrid_recommendations_single prefs cosim_matrix user t movies movies2 ii
          excluded weighted N).1 =
        get_hybrid_recommendations_single_spec prefs cosim_matrix user t movies movies2
          ii excluded weighted N) := by
  refine ⟨?_, ?_, hybrid_full_eq_spec, hybrid_single_eq_spec⟩
  · intro prefs cosim_matrix user t movies ii weighted N n
    rfl
  · intro prefs cosim_matrix user t movies movies2 ii excluded weighted N
    unfold get_hybrid_recommendations_single
    by_cases hc : 0 < ((ids1to N).foldl (hybrid_step prefs user t movies ii
        weighted excluded (movies2 excluded)) ((0, 0), cosim_matrix)).1.1 ∧
        0 < ((ids1to N).foldl (hybrid_step prefs user t movies ii
          weighted excluded (movies2 excluded)) ((0, 0), cosim_matrix)).1.2
    · rw [if_pos hc]
    · rw [if_neg hc]

theorem setEntry_delEntry (m : RatingMatrix) (u it : String) (h : it ∈ m.items u) :
    setEntry (delEntry m u it) u it (m.rate u it) = m := by
  rw [RatingMatrix.ext_iff]
  refine ⟨rfl, ?_, ?_⟩
  · funext v
    unfold setEntry delEntry
    by_cases hv : v = u
    · subst hv
      simp only [if_pos rfl]
      exact Finset.insert_erase h
    · simp only [if_neg hv]
  · funext v j
    unfold setEntry delEntry
    by_cases hv : v = u ∧ j = it
    · simp only [if_pos hv]
      rw [hv.1, hv.2]
    · simp only [if_neg hv]

theorem loo_trials_restores (prefs : RatingMatrix) (algo : Algo) :
    ∀ (trials : List (String × String)) (errs0 : List ℚ),
      (∀ p ∈ trials, p.2 ∈ prefs.items p.1) →
      ∀ errs, (loo_trials prefs algo trials prefs errs0).1 = Except.ok errs →
        (loo_trials prefs algo trials prefs errs0).2 = prefs := by
  intro trials
  induction trials with
  | nil => intro errs0 _ errs _; rfl
  | cons p rest ih =>
    obtain ⟨i, out⟩ := p
    intro errs0 hmem errs hok
    have hrest : setEntry (delEntry prefs i out) i out (prefs.rate i out) = prefs :=
      setEntry_delEntry prefs i out (hmem (i, out) (List.mem_cons_self _ _))
    simp only [loo_trials] at hok ⊢
    cases halgo : algo (delEntry prefs i out) i out with
    | error e =>
      rw [halgo] at hok
      exact absurd hok (by simp)
    | ok r0 =>
      rw [halgo] at hok
      dsimp only at hok ⊢
      rw [hrest] at hok ⊢
      exact ih _ (fun q hq => hmem q (List.mem_cons_of_mem _ hq)) errs hok

/-- C2: `loo_cv_sim` leaves the caller's rating matrix untouched (all
mutation happens on the `deepcopy`), the working copy itself equals the
original matrix again whenever the trial loop completes without an exception,
and each trial's delete-then-restore pair is the identity on any matrix
containing the deleted entry. -/
theorem c2_loocv_restoration :
    (∀ (prefs : RatingMatrix) (algo : Algo), (loo_cv_sim prefs algo).2 = prefs) ∧
    (∀ (prefs : RatingMatrix) (algo : Algo) (errs : List ℚ),
      (loo_cv_sim prefs algo).1.1 = Except.ok errs →
        (loo_cv_sim prefs algo).1.2 = prefs) ∧
    (∀ (m : RatingMatrix) (u it : String), it ∈ m.items u →
      setEntry (delEntry m u it) u it (m.rate u it) = m) := by
  refine ⟨fun _ _ => rfl, ?_, fun m u it h => setEntry_delEntry m u it h⟩
  intro prefs algo errs hok
  unfold loo_cv_sim at hok ⊢
  refine loo_trials_restores prefs algo _ [] ?_ errs hok
  intro p hp
  rcases List.mem_flatMap.mp hp with ⟨i, hi, hp2⟩
  rcases List.mem_map.mp hp2 with ⟨out, hout, rfl⟩
  exact (Finset.mem_sort _).mp hout

/-- Witness for C2 at the one-user, one-item matrix `mC2`. -/
theorem c2_loocv_restoration_witness :
    ("x" ∈ mC2.items "u") ∧
    setEntry (delEntry mC2 "u" "x") "u" "x" (mC2.rate "u" "x") = mC2 ∧
    (loo_cv_sim mC2 algoC2).2 = mC2 :=
  ⟨by decide, c2_loocv_restoration.2.2 mC2 "u" "x" (by decide),
    c2_loocv_restoration.1 mC2 algoC2⟩

/-- C3 counterexample: on `mC3` the two users share m = 2 items with a
nonzero Pearson correlation; with `k = 1 ≤ m` the claim says weighting has no
effect, but `sim_pearson` multiplies by `m/k` whenever `k ≠ 0`, so the
weighted value (4, with `sq = id`) differs from the unweighted value (2). -/
theorem c3_counterexample :
    (1 : ℚ) ≤ ((shared_items mC3 "A" "B").card : ℚ) ∧
    sim_pearson id mC3 "A" "B" 1 ≠ sim_pearson id mC3 "A" "B" 0 := by
  constructor
  · decide
  · decide

/-- C3 (amended): for `k > 0` and `m` shared items, `sim_distance` scales by
`m/k` exactly when `0 < m < k` and is unchanged when `m ≥ k`; `sim_pearson`
scales by `m/k` unconditionally whenever `k ≠ 0` (its implementation omits
the `m < k` guard), which also covers the zero-similarity cases since
`0 = 0 * (m/k)`. -/
theorem c3_significance_weighting (sq : ℚ → ℚ) (prefs : RatingMatrix)
    (p1 p2 : String) (k : ℚ) (hk : 0 < k) :
    (0 < ((shared_items prefs p1 p2).card : ℚ) →
      ((shared_items prefs p1 p2).card : ℚ) < k →
      sim_distance sq prefs p1 p2 k =
        sim_distance sq prefs p1 p2 0 * (((shared_items prefs p1 p2).card : ℚ) / k)) ∧
    (k ≤ ((shared_items prefs p1 p2).card : ℚ) →
      sim_distance sq prefs p1 p2 k = sim_distance sq prefs p1 p2 0) ∧
    (sim_pearson sq prefs p1 p2 k =
      sim_pearson sq prefs p1 p2 0 * (((shared_items prefs p1 p2).card : ℚ) / k)) := by
  have hk0 : k ≠ 0 := ne_of_gt hk
  have h00 : ¬ ((0 : ℚ) ≠ 0) := by simp
  refine ⟨?_, ?_, ?_⟩
  · intro hm hmk
    simp only [sim_distance]
    by_cases h1 : (shared_items prefs p1 p2).card = 0
    · exfalso
      rw [h1] at hm
      norm_num at hm
    · rw [if_neg h1, if_neg h1, if_pos hk0, if_pos hmk, if_neg h00]
  · intro hmk
    simp only [sim_distance]
    by_cases h1 : (shared_items prefs p1 p2).card = 0
    · rw [if_pos h1, if_pos h1]
    · rw [if_neg h1, if_neg h1, if_pos hk0, if_neg (not_lt.mpr hmk), if_neg h00]
  · simp only [sim_pearson]
    by_cases h1 : (shared_items prefs p1 p2).card = 0
    · rw [if_pos h1, if_pos h1]
      ring
    · rw [if_neg h1, if_neg h1]
      split_ifs with h2 <;> first | rfl | ring

/-- Witness for C3's amended theorem on `mC3` (m = 2 shared items) with
`k = 3`. -/
theorem c3_significance_weighting_witness :
    sim_distance id mC3 "A" "B" 3 =
      sim_distance id mC3 "A" "B" 0 * (((shared_items mC3 "A" "B").card : ℚ) / 3) ∧
    sim_pearson id mC3 "A" "B" 3 =
      sim_pearson id mC3 "A" "B" 0 * (((shared_items mC3 "A" "B").card : ℚ) / 3) :=
  ⟨(c3_significance_weighting id mC3 "A" "B" 3 (by decide)).1 (by decide) (by decide),
    (c3_significance_weighting id mC3 "A" "B" 3 (by decide)).2.2⟩

theorem shared_items_symm (prefs : RatingMatrix) (p1 p2 : String) :
    shared_items prefs p1 p2 = shared_items prefs p2 p1 := by
  unfold shared_items
  ext x
  simp only [Finset.mem_filter]
  tauto

/-- C10: both collaborative similarity functions are symmetric in their user
arguments, for every rating matrix, every significance-weighting factor, and
every square-root function. -/
theorem c10_similarity_symmetric (sq : ℚ → ℚ) (prefs : RatingMatrix)
    (p1 p2 : String) (k : ℚ) :
    sim_distance sq prefs p1 p2 k = sim_distance sq prefs p2 p1 k ∧
    sim_pearson sq prefs p1 p2 k = sim_pearson sq prefs p2 p1 k := by
  have hsym := shared_items_symm prefs p1 p2
  constructor
  · simp only [sim_distance, hsym]
    have hss : ((shared_items prefs p2 p1).sum fun item =>
        (prefs.rate p1 item - prefs.rate p2 item) ^ 2) =
        ((shared_items prefs p2 p1).sum fun item =>
          (prefs.rate p2 item - prefs.rate p1 item) ^ 2) :=
      Finset.sum_congr rfl (fun x _ => by ring)
    rw [hss]
  · simp only [sim_pearson, hsym]
    set si := shared_items prefs p2 p1 with hsi
    set xa := si.sum (fun item => prefs.rate p1 item) / (si.card : ℚ) with hxa
    set ya := si.sum (fun item => prefs.rate p2 item) / (si.card : ℚ) with hya
    have hnum : (si.sum fun item =>
        (prefs.rate p1 item - xa) * (prefs.rate p2 item - ya)) =
        (si.sum fun item => (prefs.rate p2 item - ya) * (prefs.rate p1 item - xa)) :=
      Finset.sum_congr rfl (fun x _ => by ring)
    have hden : sq (si.sum fun item => (prefs.rate p1 item - xa) ^ 2) *
        sq (si.sum fun item => (prefs.rate p2 item - ya) ^ 2) =
        sq (si.sum fun item => (prefs.rate p2 item - ya) ^ 2) *
        sq (si.sum fun item => (prefs.rate p1 item - xa) ^ 2) := mul_comm _ _
    rw [hnum, hden]

theorem FloatVal.mul_nan : ∀ x : FloatVal, x.mul .nan = .nan := by
  intro x; cases x <;> rfl

theorem FloatVal.div_nan : ∀ x : FloatVal, x.div .nan = .nan := by
  intro x; cases x <;> rfl

theorem FloatVal.add_nan : ∀ x : FloatVal, x.add .nan = .nan := by
  intro x; cases x <;> rfl

theorem fsum_succ (F : Nat) (f : Nat → FloatVal) :
    fsum (F + 1) f = (fsum F f).add (f F) := by
  unfold fsum
  rw [List.range_succ, List.foldl_append, List.foldl_cons, List.foldl_nil]

theorem fnansum_succ (F : Nat) (f : Nat → FloatVal) :
    fnansum (F + 1) f =
      (fnansum F f).add (if f F = FloatVal.nan then .fin 0 else f F) := by
  unfold fnansum
  rw [List.range_succ, List.foldl_append, List.foldl_cons, List.foldl_nil]

theorem fsum_nan (F : Nat) (hF : 0 < F) (f : Nat → FloatVal)
    (h : ∀ a, f a = FloatVal.nan) : fsum F f = FloatVal.nan := by
  cases F with
  | zero => omega
  | succ n => rw [fsum_succ, h n, FloatVal.add_nan]

theorem fnansum_nan (F : Nat) (f : Nat → FloatVal)
    (h : ∀ a, f a = FloatVal.nan) : fnansum F f = FloatVal.fin 0 := by
  induction F with
  | zero => rfl
  | succ n ih =>
    rw [fnansum_succ, h n, if_pos rfl, ih]
    show FloatVal.fin (0 + 0) = FloatVal.fin 0
    norm_num

/-- C7 counterexample: for a user with no ratings (matrix `mC7`),
`overall_sum = 0`, the float `norm_sum` is NaN — an arithmetic failure has
occurred in the score computation — yet the source's `norm_sum == 0` check
fails and `np.nansum` launders the all-NaN vector to `0.0`, so the function
returns `(0.0, excluded)` and not `(None, excluded)` as the claim states. -/
theorem c7_nan_counterexample :
    fe_single_norm_sum mC7 featuresC8 "u" tidC8 "M1" 1 1 = FloatVal.nan ∧
    get_FE_recommendations_single mC7 featuresC8 "u" tidC8 "M1" 1 1 =
      (some (FloatVal.fin 0), "M1") ∧
    get_FE_recommendations_single mC7 featuresC8 "u" tidC8 "M1" 1 1 ≠
      ((none : Option FloatVal), "M1") := by
  refine ⟨by decide, by decide, by decide⟩

/-- C7 (amended): `get_FE_recommendations_single` never raises out of the
scoring computation — it is a total function whose invalid operations yield
NaN/infinite values, not exceptions, so the source's `try/except` is dead
code — and it always reports on exactly the excluded item.  It returns
`(None, excluded)` precisely when the computed float `norm_sum` compares
equal to zero; but on the degenerate path (a user whose `feature_preference`
matrix is identically zero, e.g. no ratings at all) with at least one
feature column, the NaN `norm_sum` evades the `== 0` check and the function
returns the laundered score `(0.0, excluded)` instead of `(None, excluded)`.
(Downstream, `loo_cv_sim` discards such predictions via its `rec[0] != 0`
check.) -/
theorem c7_fe_single_no_fault (prefs : RatingMatrix) (features : Nat → Nat → ℚ)
    (user : String) (movies2 : String → Nat) (excluded : String) (I F : Nat) :
    ((get_FE_recommendations_single prefs features user movies2 excluded I F).2 =
      excluded) ∧
    ((fe_single_norm_sum prefs features user movies2 excluded I F).isZero = true →
      get_FE_recommendations_single prefs features user movies2 excluded I F =
        (none, excluded)) ∧
    ((∀ i f, feature_preference features prefs movies2 user i f = 0) → 0 < F →
      get_FE_recommendations_single prefs features user movies2 excluded I F =
        (some (FloatVal.fin 0), excluded)) := by
  refine ⟨?_, ?_, ?_⟩
  · unfold get_FE_recommendations_single
    by_cases hb : (fe_single_norm_sum prefs features user movies2 excluded I F).isZero =
        true
    · rw [if_pos hb]
    · rw [if_neg hb]
  · intro hb
    unfold get_FE_recommendations_single
    rw [if_pos hb]
  · intro hfp hF
    have hcol : ∀ f, col_sums I (feature_preference features prefs movies2 user) f = 0 :=
      fun f => Finset.sum_eq_zero (fun i _ => hfp i f)
    have hover : overall_sum I F (feature_preference features prefs movies2 user) = 0 :=
      Finset.sum_eq_zero (fun f _ => hcol f)
    have hnv : fe_norm_vector_float prefs features movies2 user I F =
        fun _ => FloatVal.nan := by
      funext f
      unfold fe_norm_vector_float
      rw [hcol f, hover]
      rfl
    have hns : fe_single_norm_sum prefs features user movies2 excluded I F =
        FloatVal.nan := by
      unfold fe_single_norm_sum
      rw [hnv]
      refine fsum_nan F hF _ (fun a => ?_)
      show FloatVal.mul (.fin (features (movies2 excluded - 1) a)) FloatVal.nan =
        FloatVal.nan
      exact FloatVal.mul_nan _
    unfold get_FE_recommendations_single
    rw [hns]
    rw [if_neg (by decide)]
    have harg : fnansum F (fun f =>
        FloatVal.mul
          (FloatVal.mul
            (FloatVal.div
              (.fin (col_sums I (feature_preference features prefs movies2 user) f))
              (.fin (nonzero_count I (feature_preference features prefs movies2 user) f : ℚ)))
            (.fin (features (movies2 excluded - 1) f)))
          (FloatVal.div
            (FloatVal.mul (.fin (features (movies2 excluded - 1) f))
              (fe_norm_vector_float prefs features movies2 user I F f))
            FloatVal.nan)) = FloatVal.fin 0 := by
      refine fnansum_nan F _ (fun a => ?_)
      show FloatVal.mul _ (FloatVal.div _ FloatVal.nan) = FloatVal.nan
      rw [FloatVal.div_nan, FloatVal.mul_nan]
    rw [harg]

/-- Witness for C7's amended theorem: the excluded item "M2" has an all-zero
feature row, so the float `norm_sum` is exactly 0 and the answer is
`(None, "M2")`; and the no-ratings matrix `mC7` takes the degenerate NaN
path to `(0.0, "M1")`. -/
theorem c7_fe_single_no_fault_witness :
    (fe_single_norm_sum mC8 featuresC7 "u" tidC7 "M2" 2 1).isZero = true ∧
    get_FE_recommendations_single mC8 featuresC7 "u" tidC7 "M2" 2 1 =
      (none, "M2") ∧
    get_FE_recommendations_single mC7 featuresC8 "u" tidC8 "M1" 1 1 =
      (some (FloatVal.fin 0), "M1") :=
  ⟨by decide,
    (c7_fe_single_no_fault mC8 featuresC7 "u" tidC7 "M2" 2 1).2.1 (by decide),
    (c7_fe_single_no_fault mC7 featuresC8 "u" tidC8 "M1" 1 1).2.2
      (fun i f => by simp [feature_preference, ratedIds, mC7]) (by decide)⟩

theorem feature_preference_scale (features : Nat → Nat → ℚ) (prefs : RatingMatrix)
    (tid : String → Nat) (user : String) (c : ℚ)
    (hinj : ∀ a ∈ prefs.items user, ∀ b ∈ prefs.items user,
      tid a - 1 = tid b - 1 → a = b) :
    ∀ i f, feature_preference features (scaleUserRatings prefs user c) tid user i f =
      c * feature_preference features prefs tid user i f := by
  intro i f
  unfold feature_preference scaleUserRatings ratedIds
  dsimp only
  by_cases hi : i ∈ (prefs.items user).image (fun movie => tid movie - 1)
  · rw [if_pos hi, if_pos hi]
    rcases Finset.mem_image.mp hi with ⟨mv0, hmv0, hmv0i⟩
    have hfilter : (prefs.items user).filter (fun movie => tid movie - 1 = i) = {mv0} := by
      apply Finset.eq_singleton_iff_unique_mem.mpr
      refine ⟨Finset.mem_filter.mpr ⟨hmv0, hmv0i⟩, ?_⟩
      intro x hx
      rcases Finset.mem_filter.mp hx with ⟨hx1, hx2⟩
      exact hinj x hx1 mv0 hmv0 (by rw [hx2, hmv0i])
    rw [hfilter, Finset.prod_singleton, Finset.prod_singleton]
    rw [if_pos rfl]
    ring
  · rw [if_neg hi, if_neg hi, mul_zero]

theorem col_sums_smul (I : Nat) (fp : Nat → Nat → ℚ) (c : ℚ) (f : Nat) :
    col_sums I (fun i g => c * fp i g) f = c * col_sums I fp f := by
  unfold col_sums
  rw [Finset.mul_sum]

theorem overall_sum_smul (I F : Nat) (fp : Nat → Nat → ℚ) (c : ℚ) :
    overall_sum I F (fun i g => c * fp i g) = c * overall_sum I F fp := by
  unfold overall_sum
  rw [Finset.mul_sum]
  exact Finset.sum_congr rfl (fun f _ => col_sums_smul I fp c f)

theorem nonzero_count_smul (I : Nat) (fp : Nat → Nat → ℚ) (c : ℚ) (hc : c ≠ 0)
    (f : Nat) : nonzero_count I (fun i g => c * fp i g) f = nonzero_count I fp f := by
  unfold nonzero_count
  congr 1
  apply Finset.filter_congr
  intro i _
  dsimp only
  constructor
  · intro h hz
    exact h (by rw [hz, mul_zero])
  · exact fun h => mul_ne_zero hc h

theorem fe_score_smul (features : Nat → Nat → ℚ) (I F : Nat)
    (fp : Nat → Nat → ℚ) (nv : Nat → ℚ) (c : ℚ) (hc : c ≠ 0) (id : Nat) :
    fe_score features I F (fun i g => c * fp i g) nv id =
      (fe_score features I F fp nv id).map (fun s => c * s) := by
  unfold fe_score
  by_cases hns : (Finset.range F).sum (fun f => features id f * nv f) = 0
  · rw [if_pos hns, if_pos hns]
    rfl
  · rw [if_neg hns, if_neg hns]
    simp only [Option.map_some]
    congr 1
    show _ = c * _
    rw [Finset.mul_sum]
    apply Finset.sum_congr rfl
    intro f _
    rw [col_sums_smul, nonzero_count_smul I fp c hc, mul_div_assoc]
    ring

theorem fe_candidates_scale (prefs : RatingMatrix) (features : Nat → Nat → ℚ)
    (tid : String → Nat) (movies : Nat → String) (user : String) (I F : Nat)
    (c : ℚ) (hc : c ≠ 0)
    (hinj : ∀ a ∈ prefs.items user, ∀ b ∈ prefs.items user,
      tid a - 1 = tid b - 1 → a = b) :
    fe_candidates (scaleUserRatings prefs user c) features tid movies user I F =
      (fe_candidates prefs features tid movies user I F).map
        (fun p => (c * p.1, p.2)) := by
  unfold fe_candidates
  have hfp : feature_preference features (scaleUserRatings prefs user c) tid user =
      (fun i g => c * feature_preference features prefs tid user i g) :=
    funext (fun i => funext (fun g =>
      feature_preference_scale features prefs tid user c hinj i g))
  have hrated : ratedIds (scaleUserRatings prefs user c) tid user =
      ratedIds prefs tid user := rfl
  rw [hrated, List.map_filterMap]
  apply List.filterMap_congr
  intro id _
  rw [hfp]
  have hnv : (fun f => col_sums I (fun i g =>
        c * feature_preference features prefs tid user i g) f /
      overall_sum I F (fun i g => c * feature_preference features prefs tid user i g)) =
      (fun f => col_sums I (feature_preference features prefs tid user) f /
        overall_sum I F (feature_preference features prefs tid user)) := by
    funext f
    rw [col_sums_smul, overall_sum_smul, mul_div_mul_left _ _ hc]
  rw [hnv]
  rw [fe_score_smul features I F (feature_preference features prefs tid user) _ c hc]
  cases fe_score features I F (feature_preference features prefs tid user)
    (fun f => col_sums I (feature_preference features prefs tid user) f /
      overall_sum I F (feature_preference features prefs tid user)) id <;> rfl

theorem pairGE_scale {c : ℚ} (hc : 0 < c) {a b : ℚ × String} (h : pairGE a b) :
    pairGE (c * a.1, a.2) (c * b.1, b.2) := by
  unfold pairGE pairLe at *
  rcases h with h | ⟨he, hs⟩
  · exact Or.inl ((mul_lt_mul_left hc).mpr h)
  · exact Or.inr ⟨by rw [he], hs⟩

theorem sortDesc_map_scale {c : ℚ} (hc : 0 < c) (l : List (ℚ × String)) :
    sortDesc (l.map (fun p => (c * p.1, p.2))) =
      (sortDesc l).map (fun p => (c * p.1, p.2)) := by
  refine List.eq_of_perm_of_sorted (r := pairGE) ?_ ?_ ?_
  · exact (sortDesc_perm _).trans ((sortDesc_perm l).map _).symm
  · exact sortDesc_sorted _
  · apply List.pairwise_map.mpr
    exact (sortDesc_sorted l).imp (fun h => pairGE_scale hc h)

theorem cap10_map_scale (n : Nat) (c : ℚ) (l : List (ℚ × String)) :
    cap10 n (l.map (fun p => (c * p.1, p.2))) =
      (cap10 n l).map (fun p => (c * p.1, p.2)) := by
  unfold cap10
  rw [List.length_map]
  split
  · rw [List.map_take]
  · rfl

theorem greedy_map_scale {c : ℚ} (hc : 0 < c) (n : Nat) :
    ∀ (cands : List (ℚ × String)) (acc : List (ℚ × String)),
      (cands.map (fun p => (c * p.1, p.2))).foldl
          (fun recs x => cap10 n (sortDesc (recs ++ [x])))
          (acc.map (fun p => (c * p.1, p.2))) =
        (cands.foldl (fun recs x => cap10 n (sortDesc (recs ++ [x]))) acc).map
          (fun p => (c * p.1, p.2)) := by
  intro cands
  induction cands with
  | nil => intro acc; rfl
  | cons x cands ih =>
    intro acc
    rw [List.map_cons, List.foldl_cons, List.foldl_cons]
    have hstep : cap10 n (sortDesc (acc.map (fun p => (c * p.1, p.2)) ++
        [((fun p => (c * p.1, p.2)) x)])) =
        (cap10 n (sortDesc (acc ++ [x]))).map (fun p => (c * p.1, p.2)) := by
      rw [show acc.map (fun p => (c * p.1, p.2)) ++ [((fun p => (c * p.1, p.2)) x)] =
          (acc ++ [x]).map (fun p => (c * p.1, p.2)) by
        rw [List.map_append, List.map_cons, List.map_nil]]
      rw [sortDesc_map_scale hc, cap10_map_scale]
    rw [hstep]
    exact ih (cap10 n (sortDesc (acc ++ [x])))

/-- C9: replacing every rating of user `u` by `c·r` for a constant `c > 0`
leaves the relative ranking (the sequence of recommended item titles) of
`get_FE_recommendations` unchanged, provided the catalog's title-to-id map is
injective on the user's rated titles (the Item Catalog bijectivity
invariant). -/
theorem c9_fe_scale_invariance (prefs : RatingMatrix) (features : Nat → Nat → ℚ)
    (movie_title_to_id : String → Nat) (movies : Nat → String) (user : String)
    (I F n : Nat) (c : ℚ) (hc : 0 < c)
    (hinj : ∀ a ∈ prefs.items user, ∀ b ∈ prefs.items user,
      movie_title_to_id a - 1 = movie_title_to_id b - 1 → a = b) :
    (get_FE_recommendations (scaleUserRatings prefs user c) features
        movie_title_to_id movies user I F n).map Prod.snd =
      (get_FE_recommendations prefs features movie_title_to_id movies user I F n).map
        Prod.snd := by
  rw [get_FE_eq_greedy, get_FE_eq_greedy]
  rw [fe_candidates_scale prefs features movie_title_to_id movies user I F c
    (ne_of_gt hc) hinj]
  have hg := greedy_map_scale hc n
    (fe_candidates prefs features movie_title_to_id movies user I F) []
  rw [List.map_nil] at hg
  rw [hg, List.map_map]
  rfl

/-- Witness for C9: doubling the single rating of user "u" leaves the ranked
titles unchanged on a 2-item catalog. -/
theorem c9_fe_scale_invariance_witness :
    (0 : ℚ) < 2 ∧
    (get_FE_recommendations (scaleUserRatings mC8 "u" 2) featuresC8 tidC8 moviesC8
        "u" 2 1 15).map Prod.snd =
      (get_FE_recommendations mC8 featuresC8 tidC8 moviesC8 "u" 2 1 15).map Prod.snd :=
  ⟨by decide,
    c9_fe_scale_invariance mC8 featuresC8 tidC8 moviesC8 "u" 2 1 15 2 (by decide)
      (by decide)⟩
